import Mathlib

set_option maxRecDepth 100000

/-!
Verification of the BioModels pipeline core: the graph builder
(`BioModels/pipeline/build_graph.py`) and the compartment name resolver
(`BioModels/pipeline/parsers.py`, `_get_name`).

Python dictionaries are embedded as insertion-ordered association lists
(`List (κ × ν)`); a genuine Python dict never has a duplicate key, so
theorems that depend on key uniqueness carry a `Nodup` hypothesis on the
key list.  `dget` is lookup, `dinsert` is `d[k] = v` (replacing in place,
keeping insertion order, as CPython does), `dupdate` is `dict.update`,
`dpop` is `dict.pop` (returning `none` where Python raises `KeyError`).
-/

namespace PyDict

variable {κ ν : Type} [DecidableEq κ]

/-- Lookup in an insertion-ordered association list: the first binding wins
(in a real Python dict keys are unique, so this is exactly `d[k]`). -/
def dget : List (κ × ν) → κ → Option ν
  | [], _ => none
  | (k, v) :: rest, q => if k = q then some v else dget rest q

/-- Assignment `d[k] = v`: an existing binding is replaced in place (keeping
its position, as CPython dicts do); a new key is appended at the end. -/
def dinsert : List (κ × ν) → κ → ν → List (κ × ν)
  | [], k, v => [(k, v)]
  | (k₀, v₀) :: rest, k, v =>
    if k₀ = k then (k₀, v) :: rest else (k₀, v₀) :: dinsert rest k v

/-- `d.update(u)`: every binding of `u` is assigned into `d`, in order. -/
def dupdate (d u : List (κ × ν)) : List (κ × ν) :=
  u.foldl (fun acc kv => dinsert acc kv.1 kv.2) d

/-- `d.pop(k)`: the value bound to `k` together with the dictionary with
that binding removed; `none` where Python raises `KeyError`. -/
def dpop : List (κ × ν) → κ → Option (ν × List (κ × ν))
  | [], _ => none
  | (k₀, v₀) :: rest, k =>
    if k₀ = k then some (v₀, rest)
    else (dpop rest k).map fun p => (p.1, (k₀, v₀) :: p.2)

/-- The key sequence of the dictionary, in insertion order. -/
def dkeys (d : List (κ × ν)) : List κ := d.map Prod.fst

/-- Lookup where the last binding wins (the value the key holds after all
bindings of a possibly-duplicated list have been assigned in order). -/
def dlast (d : List (κ × ν)) (q : κ) : Option ν := dget d.reverse q

end PyDict

/-! ## The graph builder (`build_graph.py`)

`build_graph` folds `(child_attrs, edge, parent_attrs)` 3-tuples into a
`networkx.DiGraph`.  Node names are arbitrary Python values, so the
embedding uses a small dynamic `Value` type; attribute dictionaries map
string keys to `Value`s.  `DiGraph` stores nodes and edges as
insertion-ordered dictionaries, exactly the observable state of
`networkx`'s `_node` and `_adj` structures for this use. -/

/-- A dynamically-typed Python value, as far as the pipeline uses them:
strings and integers. -/
inductive Value where
  | vstr (s : String)
  | vint (n : Int)
deriving DecidableEq, Repr

/-- An attribute dictionary: string keys to dynamic values. -/
abbrev Attrs := List (String × Value)

/-- A relationship tuple `(child_attrs, edge, parent_attrs)` as
`build_graph` consumes them. -/
abbrev RelTuple := Attrs × Value × Attrs

/-- The observable state of a `networkx.DiGraph`: the node dictionary
(name to attribute dict) and the edge dictionary (ordered name pair to
attribute dict). -/
structure DiGraph where
  nodes : List (Value × Attrs)
  edges : List ((Value × Value) × Attrs)
deriving DecidableEq, Repr

/-- `networkx.DiGraph.add_node(n, **attrs)`: a fresh node gets a fresh
attribute dict filled from `attrs`; an existing node has its attribute
dict updated in place (`dict.update`, last write wins per key). -/
def add_node (g : DiGraph) (n : Value) (attrs : Attrs) : DiGraph :=
  match PyDict.dget g.nodes n with
  | some a => { g with nodes := PyDict.dinsert g.nodes n (PyDict.dupdate a attrs) }
  | none => { g with nodes := g.nodes ++ [(n, PyDict.dupdate [] attrs)] }

/-- `networkx.DiGraph.add_edge(u, v, label=lbl)`: missing endpoints are
added as attribute-less nodes, then the edge's attribute dict (fresh if
the edge is new) is updated with `label=lbl`, overwriting any previous
label. -/
def add_edge (g : DiGraph) (u v : Value) (lbl : Value) : DiGraph :=
  let nodes₁ := match PyDict.dget g.nodes u with
    | some _ => g.nodes
    | none => g.nodes ++ [(u, [])]
  let nodes₂ := match PyDict.dget nodes₁ v with
    | some _ => nodes₁
    | none => nodes₁ ++ [(v, [])]
  let edges' := match PyDict.dget g.edges (u, v) with
    | some old => PyDict.dinsert g.edges (u, v) (PyDict.dupdate old [("label", lbl)])
    | none => g.edges ++ [((u, v), PyDict.dupdate [] [("label", lbl)])]
  { nodes := nodes₂, edges := edges' }

/-- Line 20 of `build_graph.py`:
`child_attrs.pop('name'), parent_attrs.pop('name')` — both descriptor
dictionaries lose their `"name"` binding; `none` models the `KeyError`
that propagates when either lacks the key. -/
def popNames (t : RelTuple) : Option ((Value × Attrs) × (Value × Attrs)) :=
  match PyDict.dpop t.1 "name", PyDict.dpop t.2.2 "name" with
  | some c, some p => some (c, p)
  | _, _ => none

/-- The body of `build_graph`'s loop for one tuple: pop both names, upsert
the child node, upsert the parent node, then insert/overwrite the labeled
edge. -/
def step (g : DiGraph) (t : RelTuple) : Option DiGraph :=
  match popNames t with
  | none => none
  | some ((cn, c'), (pn, p')) =>
    some (add_edge (add_node (add_node g cn c') pn p') cn pn t.2.1)

/-- `build_graph(data)`: fold the tuple stream into a fresh directed
graph; `none` models the `KeyError` propagating to the caller. -/
def build_graph (data : List RelTuple) : Option DiGraph :=
  data.foldlM step { nodes := [], edges := [] }

/-- Lookup of a node's attribute dict by name. -/
def nodeAttrs (g : DiGraph) (n : Value) : Option Attrs := PyDict.dget g.nodes n

/-- Lookup of one attribute of one node. -/
def nodeAttrGet (g : DiGraph) (n : Value) (k : String) : Option Value :=
  (PyDict.dget g.nodes n).bind fun a => PyDict.dget a k

/-- The `label` attribute of the edge `u -> v`, if the edge exists. -/
def edgeLabel (g : DiGraph) (u v : Value) : Option Value :=
  (PyDict.dget g.edges (u, v)).bind fun a => PyDict.dget a "label"

/-- The label of the last tuple of the stream whose popped child/parent
names are `u` and `v` — the label last-write-wins semantics leaves on the
edge `u -> v`. -/
def lastLabel (data : List RelTuple) (u v : Value) : Option Value :=
  data.foldl
    (fun acc t =>
      match popNames t with
      | some ((cn, _), (pn, _)) => if cn = u ∧ pn = v then some t.2.1 else acc
      | none => acc)
    none

/-- Well-formedness a `build_graph` result always has: node names, edge
pairs, and every stored attribute dict are duplicate-free. -/
def WFGraph (g : DiGraph) : Prop :=
  (PyDict.dkeys g.nodes).Nodup ∧ (PyDict.dkeys g.edges).Nodup ∧
    (∀ p ∈ g.nodes, (PyDict.dkeys p.2).Nodup) ∧
    (∀ e ∈ g.edges, (PyDict.dkeys e.2).Nodup)

/-! ## The name resolver (`parsers.py`, `_get_name` and `_get_go_id`)

`difflib.SequenceMatcher` (CPython, no junk: both strings are far below
the autojunk threshold) is embedded directly: `flmRow`/`flmBest` are the
`find_longest_match` dynamic program (longest run of equal characters
ending at each position, scanned in ascending `i` then `j`, keeping the
first strictly-longest run, which is exactly difflib's earliest-longest
block), `matchSum` is the total size of all matching blocks from the
divide-and-conquer recursion of `get_matching_blocks`, and `simScore` is
`ratio() = 2*M/T` as an exact rational (difflib computes it in floating
point; at the cutoff comparisons below the two agree on every input in
scope).  `get_close_matches`'s three cutoff tests
`real_quick_ratio() >= cutoff and quick_ratio() >= cutoff and ratio() >= cutoff`
collapse to the last: the first two are upper bounds of `ratio()`. -/

/-- One row of difflib's `find_longest_match` dynamic program: the length
of the run of equal characters ending at `(i, j)`, from the previous row's
value at `j - 1`. -/
def flmRow (ai : Char) (b : List Char) (prev : List Nat) : List Nat :=
  List.zipWith (fun bj pj => if bj = ai then pj + 1 else 0) b (0 :: prev)

/-- Scan one row in ascending `j`, keeping the best `(i, j, runlength)`
seen so far; a new entry replaces the best only when strictly longer,
matching difflib's `if k > bestsize`. -/
def bestInRow (i : Nat) (row : List Nat) (best : Nat × Nat × Nat) : Nat × Nat × Nat :=
  row.enum.foldl (fun acc jk => if jk.2 > acc.2.2 then (i, jk.1, jk.2) else acc) best

/-- The end position and length of difflib's longest matching block:
rows are scanned in ascending `i`. -/
def flmBest (a b : List Char) : Nat × Nat × Nat :=
  (a.enum.foldl
      (fun st p =>
        let row := flmRow p.2 b st.1
        (row, bestInRow p.1 row st.2))
      (List.replicate b.length 0, (0, 0, 0))).2

/-- difflib's `find_longest_match` over whole lists: the start positions
and length of the earliest longest matching block (`(0, 0, 0)` when the
lists share nothing). -/
def findLongestMatch (a b : List Char) : Nat × Nat × Nat :=
  match flmBest a b with
  | (ei, ej, k) => if k = 0 then (0, 0, 0) else (ei + 1 - k, ej + 1 - k, k)

/-- Total size of all matching blocks (the `M` of `ratio() = 2*M/T`):
the divide-and-conquer recursion of `get_matching_blocks`, with a fuel
argument for structural termination.  The `min` clamps are inert — the
block reported by `findLongestMatch` always lies inside the lists — and
the fuel `a.length + b.length + 1` used by `matchSum` below exceeds the
recursion depth, each level of which strictly shrinks the combined
length. -/
def matchSumFuel : Nat → List Char → List Char → Nat
  | 0, _, _ => 0
  | fuel + 1, a, b =>
    match findLongestMatch a b with
    | (i, j, k) =>
      if k = 0 then 0
      else
        let i' := min i a.length
        let j' := min j b.length
        let k' := min k (min (a.length - i') (b.length - j'))
        if k' = 0 then 0
        else
          k' + matchSumFuel fuel (a.take i') (b.take j')
            + matchSumFuel fuel (a.drop (i' + k')) (b.drop (j' + k'))

/-- The matched-character total of `SequenceMatcher(None, a, b)`. -/
def matchSum (a b : List Char) : Nat := matchSumFuel (a.length + b.length + 1) a b

/-- `SequenceMatcher.ratio()` as an exact fraction `numerator/denominator`:
`2*M / T`, and `1/1` when both sequences are empty (difflib's
`_calculate_ratio`).  Kept unreduced so that comparisons below are plain
cross-multiplications over `Nat`. -/
def scorePair (a b : List Char) : Nat × Nat :=
  let t := a.length + b.length
  if t = 0 then (1, 1) else (2 * matchSum a b, t)

/-- `score p ≥ 0.8`, exactly: `p.1/p.2 ≥ 4/5`. -/
def cutoffOk (p : Nat × Nat) : Bool := 4 * p.2 ≤ 5 * p.1

/-- Strict comparison of two exact scores. -/
def scoreLt (p q : Nat × Nat) : Bool := p.1 * q.2 < q.1 * p.2

/-- Equality of two exact scores. -/
def scoreEq (p q : Nat × Nat) : Bool := p.1 * q.2 == q.1 * p.2

/-- Python string `<`: lexicographic comparison by code point. -/
def pyStrLt : List Char → List Char → Bool
  | [], [] => false
  | [], _ :: _ => true
  | _ :: _, [] => false
  | c :: cs, d :: ds =>
    if c.toNat < d.toNat then true
    else if d.toNat < c.toNat then false
    else pyStrLt cs ds

/-- `difflib.get_close_matches(word, possibilities, n=1, cutoff=0.8)` as
`_get_name` calls it: the candidates scoring at least `4/5` against
`word`, of which the best one (largest `(score, candidate)` pair, first
on ties, i.e. `heapq.nlargest(1)`) is returned. -/
def get_close_matches (word : String) (possibilities : List String) : List String :=
  let scored := possibilities.filterMap fun x =>
    let r := scorePair x.data word.data
    if cutoffOk r then some (r, x) else none
  match scored.foldl
      (fun best p =>
        match best with
        | none => some p
        | some q =>
          if scoreLt q.1 p.1 || (scoreEq q.1 p.1 && pyStrLt q.2.data p.2.data)
          then some p else some q)
      none with
  | some q => [q.2]
  | none => []

/-- Python `str.lower()` (the names in scope are ASCII, where
`Char.toLower` agrees with Python). -/
def pyLower (s : String) : String := String.mk (s.data.map Char.toLower)

/-- Python `s.split('/')`: split on every slash, keeping empty pieces. -/
def splitSlash : List Char → List (List Char)
  | [] => [[]]
  | c :: rest =>
    let r := splitSlash rest
    if c = '/' then [] :: r
    else
      match r with
      | s :: ss => (c :: s) :: ss
      | [] => [[c]]

/-- Python `s.split('/')[-1]`: the last slash-separated segment. -/
def lastSegment (s : String) : String :=
  String.mk (((splitSlash s.data).getLast?).getD s.data)

/-- The Python errors the resolver can propagate to its caller. -/
inductive PyError where
  | keyError
  | indexError
deriving DecidableEq, Repr

/-- Modelled from the spec: the external ontology lookup collaborator
(`BioModels.tools.get_go_json`, whose source is not part of the staged
repository).  Per spec section 6 it "returns a structured response from
which a canonical label can be extracted at a fixed path, or
fails/returns empty": `response docs` carries the
`['response']['docs']` list, each document reduced to its
`'annotation_class_label'` string; `valueError` is the `ValueError` the
parser catches for an invalid identifier. -/
inductive LookupResult where
  | valueError
  | response (docs : List String)
deriving DecidableEq, Repr

/-- A BeautifulSoup compartment tag, as far as `_get_name` reads it:
`rdfLi = none` means the tag has no `rdf:li` descendant (so subscripting
`None` raises the `TypeError` caught inside `_get_go_id`);
`some none` means an `rdf:li` exists but lacks the `rdf:resource`
attribute (subscripting the tag raises an uncaught `KeyError`);
`some (some r)` is the attribute's value.  `nameAttr`/`idAttr` are the
tag's `name`/`id` attributes. -/
structure CompartmentTag where
  rdfLi : Option (Option String)
  nameAttr : Option String
  idAttr : Option String
deriving DecidableEq, Repr

/-- `_get_go_id`: the last path segment of the `rdf:li` tag's
`rdf:resource`, `none` when the `TypeError` path returns `None`, and an
uncaught `KeyError` when the `rdf:li` exists without the attribute. -/
def get_go_id (tag : CompartmentTag) : Except PyError (Option String) :=
  match tag.rdfLi with
  | none => .ok none
  | some none => .error .keyError
  | some (some r) => .ok (some (lastSegment r))

/-- The `except (AssertionError, ValueError)` branch of `_get_name`:
`name = tag.attrs['name'] if 'name' in tag.attrs else tag.attrs['id']`
(a `KeyError` when both are absent), then the closest reference match at
cutoff 0.8 of the lower-cased name, or the name verbatim. -/
def fallbackName (tag : CompartmentTag) (all_go_compartments : List String) :
    Except PyError String :=
  match (match tag.nameAttr with | some n => some n | none => tag.idAttr) with
  | none => .error .keyError
  | some nm =>
    match get_close_matches (pyLower nm) all_go_compartments with
    | m :: _ => .ok m
    | [] => .ok nm

/-- `_get_name(compartment_tag, all_go_compartments)`: try the GO-id
lookup (`assert go_id`, then
`get_go_json(go_id)['response']['docs'][0]`), falling back on
`AssertionError` (no annotation) or `ValueError` (invalid identifier);
an empty `docs` list raises an uncaught `IndexError`, and a missing
`rdf:resource` attribute an uncaught `KeyError`.  The external lookup is
passed as the oracle `lookup`. -/
def get_name (lookup : String → LookupResult) (tag : CompartmentTag)
    (all_go_compartments : List String) : Except PyError String :=
  match get_go_id tag with
  | .error e => .error e
  | .ok none => fallbackName tag all_go_compartments
  | .ok (some gid) =>
    match lookup gid with
    | .valueError => fallbackName tag all_go_compartments
    | .response docs =>
      match docs with
      | [] => .error .indexError
      | d :: _ => .ok d

/-! ## Concrete inputs used by witnesses and counterexamples -/

/-- Tuple `({name:"x", k1:1}, "L1", {name:"y"})` of the attribute-merge
scenario. -/
def mergeTup1 : RelTuple :=
  ([("name", .vstr "x"), ("k1", .vint 1)], .vstr "L1", [("name", .vstr "y")])

/-- Tuple `({name:"x", k2:2}, "L2", {name:"z"})` of the attribute-merge
scenario. -/
def mergeTup2 : RelTuple :=
  ([("name", .vstr "x"), ("k2", .vint 2)], .vstr "L2", [("name", .vstr "z")])

/-- The graph after folding `mergeTup1`. -/
def mergeG1 : DiGraph := (build_graph [mergeTup1]).getD ⟨[], []⟩

/-- The graph after folding `mergeTup1` then `mergeTup2`. -/
def mergeG2 : DiGraph := (step mergeG1 mergeTup2).getD ⟨[], []⟩

/-- Tuple `({name:"x", k:1}, "A", {name:"y"})`: same child/parent pair as
`overwriteTup2` but a different label and a different `k`. -/
def overwriteTup1 : RelTuple :=
  ([("name", .vstr "x"), ("k", .vint 1)], .vstr "A", [("name", .vstr "y")])

/-- Tuple `({name:"x", k:2}, "B", {name:"y"})`. -/
def overwriteTup2 : RelTuple :=
  ([("name", .vstr "x"), ("k", .vint 2)], .vstr "B", [("name", .vstr "y")])

/-- A tuple whose child descriptor lacks the `"name"` key. -/
def namelessTup : RelTuple :=
  ([("color", .vstr "green")], .vstr "isPartOf", [("name", .vstr "y")])

/-- A self-relating tuple: child and parent descriptors both named `"w"`,
sharing the attribute key `"c"` with different values. -/
def selfLoopTup : RelTuple :=
  ([("name", .vstr "w"), ("c", .vint 1)], .vstr "loop", [("name", .vstr "w"), ("c", .vint 2)])

/-- A compartment tag with no ontology annotation and declared name
`"cytosol"`. -/
def cytosolTag : CompartmentTag :=
  { rdfLi := none, nameAttr := some "cytosol", idAttr := none }

/-- A compartment tag whose annotation carries a GO identifier URI. -/
def annotatedTag : CompartmentTag :=
  { rdfLi := some (some "http://identifiers.org/go/GO:0005829"),
    nameAttr := some "cytosol", idAttr := none }

/-- A lookup oracle that always fails with `ValueError` (never consulted
on tags without an annotation). -/
def failingLookup : String → LookupResult := fun _ => .valueError

/-- A lookup oracle whose response carries no documents: the service-miss
case. -/
def emptyDocsLookup : String → LookupResult := fun _ => .response []

/-- A lookup oracle that returns one document labelled `"cytosol"`. -/
def oneDocLookup : String → LookupResult := fun _ => .response ["cytosol"]

deriving instance DecidableEq for Except

/-- The graph `build_graph [overwriteTup1, overwriteTup2]` produces: one
edge, carrying only the later label `"B"`, and `k` holding the later
value `2`. -/
def overwriteG : DiGraph :=
  { nodes := [(.vstr "x", [("k", .vint 2)]), (.vstr "y", [])],
    edges := [((.vstr "x", .vstr "y"), [("label", .vstr "B")])] }

/-! ## Dictionary lemmas -/

namespace PyDict

variable {κ ν : Type} [DecidableEq κ]

theorem dget_dinsert (d : List (κ × ν)) (k : κ) (v : ν) (q : κ) :
    dget (dinsert d k v) q = if k = q then some v else dget d q := by
  induction d with
  | nil => simp [dinsert, dget]
  | cons e rest ih =>
    by_cases h : e.1 = k
    · simp only [dinsert, dget, h, if_pos rfl]
      by_cases hq : k = q <;> simp [dget, hq]
    · simp only [dinsert, dget, if_neg h]
      by_cases hq : e.1 = q
      · have : ¬k = q := fun hkq => h (hq.trans hkq.symm)
        simp [dget, hq, this, ih]
      · simp [dget, hq, ih]

theorem dkeys_nil : dkeys ([] : List (κ × ν)) = [] := rfl

theorem dkeys_cons (e : κ × ν) (d : List (κ × ν)) :
    dkeys (e :: d) = e.1 :: dkeys d := rfl

theorem dkeys_append (d₁ d₂ : List (κ × ν)) :
    dkeys (d₁ ++ d₂) = dkeys d₁ ++ dkeys d₂ := by
  simp [dkeys]

theorem mem_dkeys_iff_isSome (d : List (κ × ν)) (q : κ) :
    q ∈ dkeys d ↔ (dget d q).isSome := by
  induction d with
  | nil => simp [dkeys_nil, dget]
  | cons e rest ih =>
    rw [dkeys_cons, List.mem_cons]
    by_cases h : e.1 = q
    · simp [dget, h]
    · have h' : ¬q = e.1 := fun hh => h hh.symm
      simp [dget, h, h', ih]

theorem dget_eq_none_of_not_mem {d : List (κ × ν)} {q : κ} (h : q ∉ dkeys d) :
    dget d q = none := by
  have := (mem_dkeys_iff_isSome d q).not.mp h
  cases hg : dget d q with
  | none => rfl
  | some v => rw [hg] at this; simp at this

theorem dkeys_dinsert_of_mem {d : List (κ × ν)} {k : κ} (v : ν) (h : k ∈ dkeys d) :
    dkeys (dinsert d k v) = dkeys d := by
  induction d with
  | nil => simp [dkeys_nil] at h
  | cons e rest ih =>
    by_cases he : e.1 = k
    · simp [dinsert, he, dkeys_cons]
    · rw [dkeys_cons, List.mem_cons] at h
      have hk : k ∈ dkeys rest := by
        rcases h with h | h
        · exact absurd h.symm he
        · exact h
      simp only [dinsert, if_neg he, dkeys_cons]
      rw [ih hk]

theorem dkeys_dinsert_of_not_mem {d : List (κ × ν)} {k : κ} (v : ν) (h : k ∉ dkeys d) :
    dkeys (dinsert d k v) = dkeys d ++ [k] := by
  induction d with
  | nil => simp [dinsert, dkeys]
  | cons e rest ih =>
    rw [dkeys_cons] at h
    have he : e.1 ≠ k := fun hek => h (by simp [hek])
    have hk : k ∉ dkeys rest := fun hm => h (List.mem_cons_of_mem _ hm)
    simp only [dinsert, if_neg he, dkeys_cons]
    rw [ih hk]
    rfl

theorem nodup_dkeys_dinsert {d : List (κ × ν)} {k : κ} (v : ν)
    (h : (dkeys d).Nodup) : (dkeys (dinsert d k v)).Nodup := by
  by_cases hm : k ∈ dkeys d
  · rwa [dkeys_dinsert_of_mem v hm]
  · rw [dkeys_dinsert_of_not_mem v hm, List.nodup_append]
    refine ⟨h, List.nodup_singleton _, ?_⟩
    intro a ha hb
    rw [List.mem_singleton] at hb
    exact hm (hb ▸ ha)

theorem mem_dinsert {d : List (κ × ν)} {k : κ} {v : ν} {p : κ × ν}
    (h : p ∈ dinsert d k v) : p ∈ d ∨ p.2 = v := by
  induction d with
  | nil => simp [dinsert] at h; simp [h]
  | cons e rest ih =>
    by_cases he : e.1 = k
    · simp [dinsert, he] at h
      rcases h with h | h
      · right; simp [h]
      · left; simp [h]
    · simp [dinsert, he] at h
      rcases h with h | h
      · left; simp [h]
      · rcases ih h with h' | h'
        · left; simp [h']
        · right; exact h'

theorem dget_append (d₁ d₂ : List (κ × ν)) (q : κ) :
    dget (d₁ ++ d₂) q = (dget d₁ q <|> dget d₂ q) := by
  induction d₁ with
  | nil => simp [dget]
  | cons e rest ih =>
    by_cases h : e.1 = q <;> simp [dget, h, ih]

theorem dupdate_nil (d : List (κ × ν)) : dupdate d [] = d := rfl

theorem dupdate_cons (d : List (κ × ν)) (e : κ × ν) (u : List (κ × ν)) :
    dupdate d (e :: u) = dupdate (dinsert d e.1 e.2) u := rfl

theorem dupdate_append (d u w : List (κ × ν)) :
    dupdate d (u ++ w) = dupdate (dupdate d u) w := by
  simp [dupdate, List.foldl_append]

theorem dlast_nil (q : κ) : dlast ([] : List (κ × ν)) q = none := rfl

theorem dlast_cons (e : κ × ν) (u : List (κ × ν)) (q : κ) :
    dlast (e :: u) q = (dlast u q <|> if e.1 = q then some e.2 else none) := by
  obtain ⟨k, v⟩ := e
  show dget (((k, v) :: u).reverse) q = _
  rw [List.reverse_cons, dget_append]
  simp [dlast, dget]

theorem dget_dupdate (d u : List (κ × ν)) (q : κ) :
    dget (dupdate d u) q = (dlast u q <|> dget d q) := by
  induction u generalizing d with
  | nil => simp [dupdate_nil, dlast_nil]
  | cons e u ih =>
    rw [dupdate_cons, ih, dlast_cons, dget_dinsert]
    cases dlast u q with
    | some v => simp
    | none =>
      by_cases h : e.1 = q <;> simp [h]

theorem mem_dkeys_dupdate_left {d : List (κ × ν)} {q : κ} (u : List (κ × ν))
    (h : q ∈ dkeys d) : q ∈ dkeys (dupdate d u) := by
  induction u generalizing d with
  | nil => simpa [dupdate_nil]
  | cons e u ih =>
    rw [dupdate_cons]
    apply ih
    by_cases he : e.1 ∈ dkeys d
    · rwa [dkeys_dinsert_of_mem _ he]
    · rw [dkeys_dinsert_of_not_mem _ he]
      exact List.mem_append_left _ h

theorem mem_dkeys_dupdate_right {u : List (κ × ν)} {q : κ} (d : List (κ × ν))
    (h : q ∈ dkeys u) : q ∈ dkeys (dupdate d u) := by
  induction u generalizing d with
  | nil => simp [dkeys_nil] at h
  | cons e u ih =>
    rw [dupdate_cons]
    rw [dkeys_cons, List.mem_cons] at h
    rcases h with h | h
    · apply mem_dkeys_dupdate_left
      by_cases hm : e.1 ∈ dkeys d
      · rw [dkeys_dinsert_of_mem _ hm, h]
        exact hm
      · rw [dkeys_dinsert_of_not_mem _ hm]
        exact List.mem_append_right _ (by simp [h])
    · exact ih _ h

theorem dkeys_dupdate_of_subset {d u : List (κ × ν)}
    (h : ∀ q ∈ dkeys u, q ∈ dkeys d) : dkeys (dupdate d u) = dkeys d := by
  induction u generalizing d with
  | nil => simp [dupdate_nil]
  | cons e u ih =>
    rw [dupdate_cons]
    have he : e.1 ∈ dkeys d := h e.1 (by rw [dkeys_cons]; simp)
    have hsub : ∀ q ∈ dkeys u, q ∈ dkeys (dinsert d e.1 e.2) := by
      intro q hq
      rw [dkeys_dinsert_of_mem _ he]
      exact h q (by rw [dkeys_cons]; exact List.mem_cons_of_mem _ hq)
    rw [ih hsub, dkeys_dinsert_of_mem _ he]

theorem nodup_dkeys_dupdate {d : List (κ × ν)} (u : List (κ × ν))
    (h : (dkeys d).Nodup) : (dkeys (dupdate d u)).Nodup := by
  induction u generalizing d with
  | nil => simpa [dupdate_nil]
  | cons e u ih => exact ih (nodup_dkeys_dinsert _ h)

theorem mem_dupdate {d u : List (κ × ν)} {p : κ × ν}
    (h : p ∈ dupdate d u) : p ∈ d ∨ ∃ e ∈ u, p.2 = e.2 := by
  induction u generalizing d with
  | nil => simp [dupdate_nil] at h; exact Or.inl h
  | cons e u ih =>
    rw [dupdate_cons] at h
    rcases ih h with h' | ⟨e', he', hp⟩
    · rcases mem_dinsert h' with h'' | h''
      · exact Or.inl h''
      · exact Or.inr ⟨e, by simp, h''⟩
    · exact Or.inr ⟨e', by simp [he'], hp⟩

theorem ext_nodup {d₁ d₂ : List (κ × ν)} (hn : (dkeys d₁).Nodup)
    (hk : dkeys d₁ = dkeys d₂) (hv : ∀ q, dget d₁ q = dget d₂ q) : d₁ = d₂ := by
  induction d₁ generalizing d₂ with
  | nil =>
    cases d₂ with
    | nil => rfl
    | cons e rest => rw [dkeys_nil, dkeys_cons] at hk; exact absurd hk (by simp)
  | cons e rest ih =>
    obtain ⟨k₁, v₁⟩ := e
    cases d₂ with
    | nil => rw [dkeys_cons, dkeys_nil] at hk; exact absurd hk (by simp)
    | cons e₂ rest₂ =>
      obtain ⟨k₂, v₂⟩ := e₂
      rw [dkeys_cons, dkeys_cons] at hk
      injection hk with hk1 hk2
      rw [dkeys_cons, List.nodup_cons] at hn
      subst hk1
      have hv1 : v₁ = v₂ := by
        have h := hv k₁
        simpa [dget] using h
      have hrest : rest = rest₂ := by
        apply ih hn.2 hk2
        intro q
        by_cases hq : k₁ = q
        · subst hq
          rw [dget_eq_none_of_not_mem hn.1, dget_eq_none_of_not_mem (hk2 ▸ hn.1)]
        · have h := hv q
          simpa [dget, hq] using h
      rw [hv1, hrest]

theorem dinsert_self {d : List (κ × ν)} {k : κ} {v : ν}
    (h : dget d k = some v) : dinsert d k v = d := by
  induction d with
  | nil => simp [dget] at h
  | cons e rest ih =>
    obtain ⟨k₀, v₀⟩ := e
    by_cases he : k₀ = k
    · simp only [dget, if_pos he, Option.some.injEq] at h
      simp [dinsert, he, h]
    · simp only [dget, if_neg he] at h
      simp [dinsert, he, ih h]

theorem dupdate_idem (d u : List (κ × ν)) (h : (dkeys d).Nodup) :
    dupdate (dupdate d u) u = dupdate d u := by
  apply ext_nodup (nodup_dkeys_dupdate u (nodup_dkeys_dupdate u h))
  · exact dkeys_dupdate_of_subset fun q hq => mem_dkeys_dupdate_right d hq
  · intro q
    rw [dget_dupdate, dget_dupdate]
    cases dlast u q <;> simp

theorem dpop_eq_none_iff (d : List (κ × ν)) (k : κ) :
    dpop d k = none ↔ dget d k = none := by
  induction d with
  | nil => simp [dpop, dget]
  | cons e rest ih =>
    by_cases he : e.1 = k <;> simp [dpop, dget, he, ih]

theorem dget_of_dpop {d d' : List (κ × ν)} {k : κ} {v : ν}
    (h : dpop d k = some (v, d')) : dget d k = some v := by
  induction d generalizing d' with
  | nil => simp [dpop] at h
  | cons e rest ih =>
    obtain ⟨k₀, v₀⟩ := e
    by_cases he : k₀ = k
    · simp only [dpop, if_pos he] at h
      injection h with h
      injection h with h1 _
      simp [dget, he, h1]
    · simp only [dpop, if_neg he] at h
      cases hrec : dpop rest k with
      | none => rw [hrec] at h; simp at h
      | some p =>
        obtain ⟨v₁, rest₁⟩ := p
        rw [hrec] at h
        simp only [Option.map_some'] at h
        injection h with h
        injection h with h1 _
        simp only [dget, if_neg he]
        exact ih (h1 ▸ hrec)

theorem dkeys_dpop {d d' : List (κ × ν)} {k : κ} {v : ν}
    (h : dpop d k = some (v, d')) : dkeys d' = (dkeys d).erase k := by
  induction d generalizing d' with
  | nil => simp [dpop] at h
  | cons e rest ih =>
    obtain ⟨k₀, v₀⟩ := e
    by_cases he : k₀ = k
    · simp only [dpop, if_pos he] at h
      injection h with h
      injection h with _ h2
      rw [dkeys_cons, List.erase_cons, if_pos (by simpa using he), ← h2]
    · simp only [dpop, if_neg he] at h
      cases hrec : dpop rest k with
      | none => rw [hrec] at h; simp at h
      | some p =>
        obtain ⟨v₁, rest₁⟩ := p
        rw [hrec] at h
        simp only [Option.map_some'] at h
        injection h with h
        injection h with h1 h2
        rw [← h2, dkeys_cons, dkeys_cons, List.erase_cons,
          if_neg (by simpa using he)]
        rw [ih (h1 ▸ hrec)]

theorem dget_dpop_other {d d' : List (κ × ν)} {k q : κ} {v : ν}
    (h : dpop d k = some (v, d')) (hq : q ≠ k) : dget d' q = dget d q := by
  induction d generalizing d' with
  | nil => simp [dpop] at h
  | cons e rest ih =>
    obtain ⟨k₀, v₀⟩ := e
    by_cases he : k₀ = k
    · simp only [dpop, if_pos he] at h
      injection h with h
      injection h with _ h2
      have hkq : ¬k₀ = q := fun hc => hq (hc ▸ he)
      rw [← h2, dget, if_neg hkq]
    · simp only [dpop, if_neg he] at h
      cases hrec : dpop rest k with
      | none => rw [hrec] at h; simp at h
      | some p =>
        obtain ⟨v₁, rest₁⟩ := p
        rw [hrec] at h
        simp only [Option.map_some'] at h
        injection h with h
        injection h with h1 h2
        by_cases heq : k₀ = q
        · rw [← h2, dget, if_pos heq, dget, if_pos heq]
        · rw [← h2, dget, if_neg heq, dget, if_neg heq]
          exact ih (h1 ▸ hrec)

theorem dget_dpop_self {d d' : List (κ × ν)} {k : κ} {v : ν}
    (hn : (dkeys d).Nodup) (h : dpop d k = some (v, d')) : dget d' k = none := by
  apply dget_eq_none_of_not_mem
  rw [dkeys_dpop h]
  exact hn.not_mem_erase

theorem nodup_dkeys_dpop {d d' : List (κ × ν)} {k : κ} {v : ν}
    (hn : (dkeys d).Nodup) (h : dpop d k = some (v, d')) : (dkeys d').Nodup := by
  rw [dkeys_dpop h]
  exact hn.erase k

theorem dlast_eq_dget {d : List (κ × ν)} (hn : (dkeys d).Nodup) (q : κ) :
    dlast d q = dget d q := by
  induction d with
  | nil => rfl
  | cons e rest ih =>
    simp only [dkeys, List.map_cons, List.nodup_cons] at hn
    rw [dlast_cons, ih hn.2]
    by_cases he : e.1 = q
    · rw [dget_eq_none_of_not_mem (he ▸ hn.1)]
      simp [dget, he]
    · simp [dget, he]

theorem countP_key_eq_one {d : List (κ × ν)} {k : κ}
    (hn : (dkeys d).Nodup) (hs : (dget d k).isSome) :
    d.countP (fun e => decide (e.1 = k)) = 1 := by
  induction d with
  | nil => simp [dget] at hs
  | cons e rest ih =>
    simp only [dkeys, List.map_cons, List.nodup_cons] at hn
    by_cases he : e.1 = k
    · rw [List.countP_cons]
      have : rest.countP (fun e => decide (e.1 = k)) = 0 := by
        rw [List.countP_eq_zero]
        intro a ha
        simp only [decide_eq_true_eq]
        intro hak
        exact hn.1 (he ▸ hak ▸ (by simp [dkeys]; exact ⟨a.2, by simpa using ha⟩))
      simp [this, he]
    · rw [List.countP_cons]
      have hs' : (dget rest k).isSome := by
        simpa [dget, he] using hs
      simp [he, ih hn.2 hs']

theorem mem_of_dget {d : List (κ × ν)} {k : κ} {v : ν}
    (h : dget d k = some v) : (k, v) ∈ d := by
  induction d with
  | nil => simp [dget] at h
  | cons e rest ih =>
    obtain ⟨k₀, v₀⟩ := e
    by_cases he : k₀ = k
    · simp only [dget, if_pos he, Option.some.injEq] at h
      subst he; subst h; simp
    · simp only [dget, if_neg he] at h
      exact List.mem_cons_of_mem _ (ih h)

theorem dinsert_dinsert (d : List (κ × ν)) (k : κ) (v w : ν) :
    dinsert (dinsert d k v) k w = dinsert d k w := by
  induction d with
  | nil => simp [dinsert]
  | cons e rest ih =>
    obtain ⟨k₀, v₀⟩ := e
    by_cases he : k₀ = k
    · simp [dinsert, he]
    · simp [dinsert, he, ih]

end PyDict

/-! ## Graph-builder lemmas -/

open PyDict

theorem nodes_add_node_self (g : DiGraph) (n : Value) (attrs : Attrs) :
    dget (add_node g n attrs).nodes n =
      some (dupdate ((dget g.nodes n).getD []) attrs) := by
  unfold add_node
  cases h : dget g.nodes n with
  | some a => simp [dget_dinsert]
  | none =>
    simp only [Option.getD_none]
    rw [dget_append, h]
    simp [dget]

theorem nodes_add_node_other (g : DiGraph) (n : Value) (attrs : Attrs)
    {q : Value} (hq : q ≠ n) :
    dget (add_node g n attrs).nodes q = dget g.nodes q := by
  unfold add_node
  cases h : dget g.nodes n with
  | some a =>
    simp only
    rw [dget_dinsert, if_neg (fun hc => hq hc.symm)]
  | none =>
    simp only
    rw [dget_append]
    have hnq : ¬n = q := fun hc => hq hc.symm
    have : dget [(n, dupdate ([] : Attrs) attrs)] q = none := by
      simp only [dget, if_neg hnq]
    rw [this]
    cases dget g.nodes q <;> simp

theorem edges_add_node (g : DiGraph) (n : Value) (attrs : Attrs) :
    (add_node g n attrs).edges = g.edges := by
  unfold add_node
  cases dget g.nodes n <;> rfl

theorem nodes_add_edge_of_mem (g : DiGraph) (u v : Value) (lbl : Value)
    (hu : (dget g.nodes u).isSome) (hv : (dget g.nodes v).isSome) :
    (add_edge g u v lbl).nodes = g.nodes := by
  unfold add_edge
  cases hgu : dget g.nodes u with
  | none => rw [hgu] at hu; simp at hu
  | some a =>
    cases hgv : dget g.nodes v with
    | none => rw [hgv] at hv; simp at hv
    | some b => simp [hgu, hgv]

theorem edges_add_edge_self (g : DiGraph) (u v : Value) (lbl : Value) :
    dget (add_edge g u v lbl).edges (u, v) =
      some (dupdate ((dget g.edges (u, v)).getD []) [("label", lbl)]) := by
  unfold add_edge
  cases h : dget g.edges (u, v) with
  | some a => simp [dget_dinsert]
  | none =>
    simp only [Option.getD_none]
    rw [dget_append, h]
    simp [dget]

theorem edges_add_edge_other (g : DiGraph) (u v : Value) (lbl : Value)
    {p : Value × Value} (hp : p ≠ (u, v)) :
    dget (add_edge g u v lbl).edges p = dget g.edges p := by
  unfold add_edge
  cases h : dget g.edges (u, v) with
  | some a =>
    simp only
    rw [dget_dinsert, if_neg (fun hc => hp hc.symm)]
  | none =>
    simp only
    rw [dget_append]
    have huvp : ¬(u, v) = p := fun hc => hp hc.symm
    have : dget [((u, v), dupdate ([] : Attrs) [("label", lbl)])] p = none := by
      simp only [dget, if_neg huvp]
    rw [this]
    cases dget g.edges p <;> simp

theorem popNames_inv {t : RelTuple} {cn pn : Value} {c' p' : Attrs}
    (h : popNames t = some ((cn, c'), (pn, p'))) :
    dpop t.1 "name" = some (cn, c') ∧ dpop t.2.2 "name" = some (pn, p') := by
  unfold popNames at h
  cases h₁ : dpop t.1 "name" with
  | none => rw [h₁] at h; cases h
  | some c =>
    cases h₂ : dpop t.2.2 "name" with
    | none => rw [h₁, h₂] at h; cases h
    | some p =>
      rw [h₁, h₂] at h
      injection h with h
      injection h with hc hp
      exact ⟨hc ▸ rfl, hp ▸ rfl⟩

theorem step_eq {g : DiGraph} {t : RelTuple} {cn pn : Value} {c' p' : Attrs}
    (hpop : popNames t = some ((cn, c'), (pn, p'))) :
    step g t = some (add_edge (add_node (add_node g cn c') pn p') cn pn t.2.1) := by
  unfold step
  rw [hpop]

theorem step_eq_none {g : DiGraph} {t : RelTuple}
    (hpop : popNames t = none) : step g t = none := by
  unfold step
  rw [hpop]

theorem step_inv {g g' : DiGraph} {t : RelTuple}
    (h : step g t = some g') :
    ∃ cn c' pn p', popNames t = some ((cn, c'), (pn, p')) ∧
      g' = add_edge (add_node (add_node g cn c') pn p') cn pn t.2.1 := by
  unfold step at h
  cases hpop : popNames t with
  | none => rw [hpop] at h; cases h
  | some r =>
    obtain ⟨⟨cn, c'⟩, ⟨pn, p'⟩⟩ := r
    rw [hpop] at h
    injection h with h
    exact ⟨cn, c', pn, p', rfl, h.symm⟩

theorem step_node_mono {g g' : DiGraph} {t : RelTuple} {q : Value}
    (h : step g t = some g') (hq : (dget g.nodes q).isSome) :
    (dget g'.nodes q).isSome := by
  obtain ⟨cn, c', pn, p', hpop, rfl⟩ := step_inv h
  have h₁ : (dget (add_node g cn c').nodes q).isSome := by
    by_cases hc : q = cn
    · subst hc; rw [nodes_add_node_self]; simp
    · rw [nodes_add_node_other _ _ _ hc]; exact hq
  have h₂ : (dget (add_node (add_node g cn c') pn p').nodes q).isSome := by
    by_cases hp : q = pn
    · subst hp; rw [nodes_add_node_self]; simp
    · rw [nodes_add_node_other _ _ _ hp]; exact h₁
  have hcn : (dget (add_node (add_node g cn c') pn p').nodes cn).isSome := by
    by_cases hc : cn = pn
    · subst hc; rw [nodes_add_node_self]; simp
    · rw [nodes_add_node_other _ _ _ hc, nodes_add_node_self]; simp
  have hpn : (dget (add_node (add_node g cn c') pn p').nodes pn).isSome := by
    rw [nodes_add_node_self]; simp
  rw [nodes_add_edge_of_mem _ _ _ _ hcn hpn]
  exact h₂

theorem upserted_nodes_self (g : DiGraph) (cn pn : Value) (c' p' : Attrs) :
    (dget (add_node (add_node g cn c') pn p').nodes cn).isSome ∧
      (dget (add_node (add_node g cn c') pn p').nodes pn).isSome := by
  constructor
  · by_cases hc : cn = pn
    · subst hc; rw [nodes_add_node_self]; simp
    · rw [nodes_add_node_other _ _ _ hc, nodes_add_node_self]; simp
  · rw [nodes_add_node_self]; simp

theorem step_node_self {g g' : DiGraph} {t : RelTuple} {cn pn : Value}
    {c' p' : Attrs} (h : step g t = some g')
    (hpop : popNames t = some ((cn, c'), (pn, p'))) :
    (dget g'.nodes cn).isSome ∧ (dget g'.nodes pn).isSome := by
  rw [step_eq hpop] at h
  injection h with h
  subst h
  obtain ⟨hcn, hpn⟩ := upserted_nodes_self g cn pn c' p'
  rw [nodes_add_edge_of_mem _ _ _ _ hcn hpn]
  exact ⟨hcn, hpn⟩

theorem step_edgeLabel_self {g g' : DiGraph} {t : RelTuple} {cn pn : Value}
    {c' p' : Attrs} (h : step g t = some g')
    (hpop : popNames t = some ((cn, c'), (pn, p'))) :
    edgeLabel g' cn pn = some t.2.1 := by
  rw [step_eq hpop] at h
  injection h with h
  subst h
  unfold edgeLabel
  rw [edges_add_edge_self]
  simp only [Option.some_bind]
  rw [dget_dupdate]
  simp [dlast, dget]

theorem step_edges_other {g g' : DiGraph} {t : RelTuple} {cn pn : Value}
    {c' p' : Attrs} {u v : Value} (h : step g t = some g')
    (hpop : popNames t = some ((cn, c'), (pn, p')))
    (hne : (u, v) ≠ (cn, pn)) :
    dget g'.edges (u, v) = dget g.edges (u, v) := by
  rw [step_eq hpop] at h
  injection h with h
  subst h
  rw [edges_add_edge_other _ _ _ _ hne, edges_add_node, edges_add_node]

theorem step_edgeLabel_other {g g' : DiGraph} {t : RelTuple} {cn pn : Value}
    {c' p' : Attrs} {u v : Value} (h : step g t = some g')
    (hpop : popNames t = some ((cn, c'), (pn, p')))
    (hne : (u, v) ≠ (cn, pn)) :
    edgeLabel g' u v = edgeLabel g u v := by
  unfold edgeLabel
  rw [step_edges_other h hpop hne]

theorem wf_add_node {g : DiGraph} (n : Value) (attrs : Attrs)
    (hwf : WFGraph g) : WFGraph (add_node g n attrs) := by
  obtain ⟨hn, he, hna, hea⟩ := hwf
  unfold add_node
  cases hg : dget g.nodes n with
  | some a =>
    refine ⟨nodup_dkeys_dinsert _ hn, he, ?_, hea⟩
    intro p hp
    rcases mem_dinsert hp with hp' | hp'
    · exact hna p hp'
    · rw [hp']
      exact nodup_dkeys_dupdate _ (hna _ (mem_of_dget hg))
  | none =>
    refine ⟨?_, he, ?_, hea⟩
    · rw [dkeys_append, List.nodup_append]
      refine ⟨hn, by simp [dkeys], ?_⟩
      intro a ha hb
      rw [show dkeys [(n, dupdate ([] : Attrs) attrs)] = [n] from rfl,
        List.mem_singleton] at hb
      subst hb
      rw [mem_dkeys_iff_isSome, hg] at ha
      simp at ha
    · intro p hp
      rcases List.mem_append.mp hp with hp' | hp'
      · exact hna p hp'
      · rw [List.mem_singleton] at hp'
        rw [hp']
        exact nodup_dkeys_dupdate _ List.nodup_nil

theorem wf_add_edge {g : DiGraph} (u v : Value) (lbl : Value)
    (hwf : WFGraph g) : WFGraph (add_edge g u v lbl) := by
  obtain ⟨hn, he, hna, hea⟩ := hwf
  unfold add_edge
  simp only
  have hnodes :
      ∀ ns : List (Value × Attrs), (dkeys ns).Nodup → (∀ p ∈ ns, (dkeys p.2).Nodup) →
      ∀ w : Value,
        (dkeys (match dget ns w with
          | some _ => ns
          | none => ns ++ [(w, [])])).Nodup ∧
        (∀ p ∈ (match dget ns w with
          | some _ => ns
          | none => ns ++ [(w, [])]), (dkeys p.2).Nodup) := by
    intro ns hns hnsa w
    cases hg : dget ns w with
    | some a => exact ⟨hns, hnsa⟩
    | none =>
      constructor
      · rw [dkeys_append, List.nodup_append]
        refine ⟨hns, by simp [dkeys], ?_⟩
        intro a ha hb
        rw [show dkeys [(w, ([] : Attrs))] = [w] from rfl, List.mem_singleton] at hb
        subst hb
        rw [mem_dkeys_iff_isSome, hg] at ha
        simp at ha
      · intro p hp
        rcases List.mem_append.mp hp with hp' | hp'
        · exact hnsa p hp'
        · rw [List.mem_singleton] at hp'
          rw [hp']
          exact List.nodup_nil
  obtain ⟨h₁, h₁a⟩ := hnodes g.nodes hn hna u
  obtain ⟨h₂, h₂a⟩ := hnodes _ h₁ h₁a v
  refine ⟨h₂, ?_, h₂a, ?_⟩
  · cases hg : dget g.edges (u, v) with
    | some a => exact nodup_dkeys_dinsert _ he
    | none =>
      rw [dkeys_append, List.nodup_append]
      refine ⟨he, by simp [dkeys], ?_⟩
      intro a ha hb
      rw [show dkeys [((u, v), dupdate ([] : Attrs) [("label", lbl)])] = [(u, v)] from rfl,
        List.mem_singleton] at hb
      subst hb
      rw [mem_dkeys_iff_isSome, hg] at ha
      simp at ha
  · cases hg : dget g.edges (u, v) with
    | some a =>
      intro p hp
      rcases mem_dinsert hp with hp' | hp'
      · exact hea p hp'
      · rw [hp']
        exact nodup_dkeys_dupdate _ (hea _ (mem_of_dget hg))
    | none =>
      intro p hp
      rcases List.mem_append.mp hp with hp' | hp'
      · exact hea p hp'
      · rw [List.mem_singleton] at hp'
        rw [hp']
        exact nodup_dkeys_dupdate _ List.nodup_nil

theorem wf_step {g g' : DiGraph} {t : RelTuple}
    (hwf : WFGraph g) (h : step g t = some g') : WFGraph g' := by
  obtain ⟨cn, c', pn, p', hpop, rfl⟩ := step_inv h
  exact wf_add_edge _ _ _ (wf_add_node _ _ (wf_add_node _ _ hwf))

theorem wf_empty : WFGraph ⟨[], []⟩ := by
  refine ⟨List.nodup_nil, List.nodup_nil, ?_, ?_⟩ <;> intro p hp <;> simp at hp

theorem foldlM_step_append (g : DiGraph) (l₁ l₂ : List RelTuple) :
    List.foldlM step g (l₁ ++ l₂) =
      (List.foldlM step g l₁).bind fun h => List.foldlM step h l₂ := by
  induction l₁ generalizing g with
  | nil => simp [List.foldlM_nil]
  | cons t l₁ ih =>
    rw [List.cons_append, List.foldlM_cons, List.foldlM_cons]
    cases step g t with
    | none => simp
    | some g₁ => simpa using ih g₁

theorem wf_foldlM {g g' : DiGraph} {l : List RelTuple}
    (hwf : WFGraph g) (h : List.foldlM step g l = some g') : WFGraph g' := by
  induction l generalizing g with
  | nil =>
    rw [List.foldlM_nil] at h
    injection h with h
    exact h ▸ hwf
  | cons t l ih =>
    rw [List.foldlM_cons] at h
    cases hs : step g t with
    | none => rw [hs] at h; simp at h
    | some g₁ =>
      rw [hs] at h
      exact ih (wf_step hwf hs) (by simpa using h)

theorem wf_build_graph {data : List RelTuple} {g : DiGraph}
    (h : build_graph data = some g) : WFGraph g :=
  wf_foldlM wf_empty h

theorem build_graph_append (data₁ data₂ : List RelTuple) :
    build_graph (data₁ ++ data₂) =
      (build_graph data₁).bind fun g => List.foldlM step g data₂ :=
  foldlM_step_append _ _ _

theorem lastLabel_concat_match {t : RelTuple} {cn pn : Value} {c' p' : Attrs}
    (l : List RelTuple) (hpop : popNames t = some ((cn, c'), (pn, p'))) :
    lastLabel (l ++ [t]) cn pn = some t.2.1 := by
  unfold lastLabel
  rw [List.foldl_append]
  simp [hpop]

theorem lastLabel_concat_of_not {t : RelTuple} {cn pn u v : Value} {c' p' : Attrs}
    (l : List RelTuple) (hpop : popNames t = some ((cn, c'), (pn, p')))
    (hne : ¬(cn = u ∧ pn = v)) :
    lastLabel (l ++ [t]) u v = lastLabel l u v := by
  unfold lastLabel
  rw [List.foldl_append]
  simp [hpop, hne]

theorem lastLabel_concat_none {t : RelTuple} (l : List RelTuple) (u v : Value)
    (hpop : popNames t = none) :
    lastLabel (l ++ [t]) u v = lastLabel l u v := by
  unfold lastLabel
  rw [List.foldl_append]
  simp [hpop]

theorem lastLabel_isSome_of_mem {data : List RelTuple} {t : RelTuple}
    {cn pn : Value} {c' p' : Attrs} (ht : t ∈ data)
    (hpop : popNames t = some ((cn, c'), (pn, p'))) :
    (lastLabel data cn pn).isSome := by
  induction data using List.reverseRecOn with
  | nil => simp at ht
  | append_singleton l t₀ ih =>
    rcases List.mem_append.mp ht with ht' | ht'
    · cases hp₀ : popNames t₀ with
      | none => rw [lastLabel_concat_none _ _ _ hp₀]; exact ih ht'
      | some r =>
        obtain ⟨⟨cn₀, c₀⟩, ⟨pn₀, p₀⟩⟩ := r
        by_cases hm : cn₀ = cn ∧ pn₀ = pn
        · rw [hm.1, hm.2] at hp₀
          rw [lastLabel_concat_match _ hp₀]
          simp
        · rw [lastLabel_concat_of_not _ hp₀ hm]
          exact ih ht'
    · rw [List.mem_singleton] at ht'
      subst ht'
      rw [lastLabel_concat_match _ hpop]
      simp

theorem build_singleton_step {g₀ g : DiGraph} {t : RelTuple}
    (h : List.foldlM step g₀ [t] = some g) : step g₀ t = some g := by
  rw [List.foldlM_cons] at h
  cases hs : step g₀ t with
  | none => rw [hs] at h; simp at h
  | some g₁ =>
    rw [hs] at h
    simpa using h

theorem build_edgeLabel_eq_lastLabel {data : List RelTuple} {g : DiGraph}
    (h : build_graph data = some g) (u v : Value) :
    edgeLabel g u v = lastLabel data u v := by
  induction data using List.reverseRecOn generalizing g with
  | nil =>
    unfold build_graph at h
    rw [List.foldlM_nil] at h
    injection h with h
    subst h
    rfl
  | append_singleton l t ih =>
    rw [build_graph_append] at h
    cases hb : build_graph l with
    | none => rw [hb] at h; simp at h
    | some g₀ =>
      rw [hb] at h
      simp only [Option.some_bind] at h
      have hstep : step g₀ t = some g := build_singleton_step h
      obtain ⟨cn, c', pn, p', hpop, _⟩ := step_inv hstep
      by_cases hme : (u, v) = (cn, pn)
      · injection hme with hu hv
        subst hu; subst hv
        rw [step_edgeLabel_self hstep hpop, lastLabel_concat_match _ hpop]
      · rw [step_edgeLabel_other hstep hpop hme, ih hb,
          lastLabel_concat_of_not _ hpop
            (fun hc => hme (by rw [hc.1, hc.2]))]

theorem build_node_exists {data : List RelTuple} {g : DiGraph} {t : RelTuple}
    {cn pn : Value} {c' p' : Attrs} (h : build_graph data = some g)
    (ht : t ∈ data) (hpop : popNames t = some ((cn, c'), (pn, p'))) :
    (dget g.nodes cn).isSome ∧ (dget g.nodes pn).isSome := by
  induction data using List.reverseRecOn generalizing g with
  | nil => simp at ht
  | append_singleton l t₀ ih =>
    rw [build_graph_append] at h
    cases hb : build_graph l with
    | none => rw [hb] at h; simp at h
    | some g₀ =>
      rw [hb] at h
      simp only [Option.some_bind] at h
      have hstep : step g₀ t₀ = some g := build_singleton_step h
      rcases List.mem_append.mp ht with ht' | ht'
      · obtain ⟨h₁, h₂⟩ := ih hb ht'
        exact ⟨step_node_mono hstep h₁, step_node_mono hstep h₂⟩
      · rw [List.mem_singleton] at ht'
        subst ht'
        exact step_node_self hstep hpop

theorem wf_getD_nodes {g : DiGraph} (hwf : WFGraph g) (n : Value) :
    (dkeys ((dget g.nodes n).getD [])).Nodup := by
  cases h : dget g.nodes n with
  | none => simp [dkeys]
  | some a =>
    simp only [Option.getD_some]
    exact hwf.2.2.1 (n, a) (mem_of_dget h)

theorem wf_getD_edges {g : DiGraph} (hwf : WFGraph g) (p : Value × Value) :
    (dkeys ((dget g.edges p).getD [])).Nodup := by
  cases h : dget g.edges p with
  | none => simp [dkeys]
  | some a =>
    simp only [Option.getD_some]
    exact hwf.2.2.2 (p, a) (mem_of_dget h)

theorem add_node_self_eq {g : DiGraph} {n : Value} {a : Attrs} (attrs : Attrs)
    (h : dget g.nodes n = some a) (ha : dupdate a attrs = a) :
    add_node g n attrs = g := by
  unfold add_node
  simp only [h]
  rw [ha, dinsert_self h]

theorem add_node_eq_of_dget_some {g : DiGraph} {n : Value} {a : Attrs}
    (attrs : Attrs) (h : dget g.nodes n = some a) :
    add_node g n attrs = { g with nodes := dinsert g.nodes n (dupdate a attrs) } := by
  unfold add_node
  simp only [h]

theorem add_node_add_node_self_eq {g : DiGraph} {n : Value} {a : Attrs}
    (c p : Attrs) (h : dget g.nodes n = some a)
    (ha : dupdate (dupdate a c) p = a) :
    add_node (add_node g n c) n p = g := by
  have e₁ := add_node_eq_of_dget_some c h
  have h₁ : dget (add_node g n c).nodes n = some (dupdate a c) := by
    rw [nodes_add_node_self, h, Option.getD_some]
  have e₂ := add_node_eq_of_dget_some p h₁
  rw [e₂, e₁]
  simp only
  rw [dinsert_dinsert, ha, dinsert_self h]

theorem add_edge_self_eq {g : DiGraph} {u v : Value} {a : Attrs} (lbl : Value)
    (hu : (dget g.nodes u).isSome) (hv : (dget g.nodes v).isSome)
    (h : dget g.edges (u, v) = some a)
    (ha : dupdate a [("label", lbl)] = a) :
    add_edge g u v lbl = g := by
  unfold add_edge
  cases hgu : dget g.nodes u with
  | none => rw [hgu] at hu; simp at hu
  | some x =>
    cases hgv : dget g.nodes v with
    | none => rw [hgv] at hv; simp at hv
    | some y =>
      simp only [hgu, hgv, h]
      rw [ha, dinsert_self h]

theorem step_idem {g g' : DiGraph} {t : RelTuple}
    (hwf : WFGraph g) (h : step g t = some g') : step g' t = some g' := by
  obtain ⟨cn, c', pn, p', hpop, hg'⟩ := step_inv h
  obtain ⟨hcn₂, hpn₂⟩ := upserted_nodes_self g cn pn c' p'
  have hnodes' : g'.nodes = (add_node (add_node g cn c') pn p').nodes := by
    rw [hg', nodes_add_edge_of_mem _ _ _ _ hcn₂ hpn₂]
  have hedges₂ : (add_node (add_node g cn c') pn p').edges = g.edges := by
    rw [edges_add_node, edges_add_node]
  have hE : dget g'.edges (cn, pn) =
      some (dupdate ((dget g.edges (cn, pn)).getD []) [("label", t.2.1)]) := by
    rw [hg', edges_add_edge_self, hedges₂]
  have hE₀ : (dkeys ((dget g.edges (cn, pn)).getD [])).Nodup := wf_getD_edges hwf _
  have hEidem :
      dupdate (dupdate ((dget g.edges (cn, pn)).getD []) [("label", t.2.1)])
        [("label", t.2.1)] =
      dupdate ((dget g.edges (cn, pn)).getD []) [("label", t.2.1)] :=
    dupdate_idem _ _ hE₀
  have hcn' : (dget g'.nodes cn).isSome := by rw [hnodes']; exact hcn₂
  have hpn' : (dget g'.nodes pn).isSome := by rw [hnodes']; exact hpn₂
  rw [step_eq hpop]
  congr 1
  by_cases hcp : cn = pn
  · subst hcp
    have hA₀ : (dkeys ((dget g.nodes cn).getD [])).Nodup := wf_getD_nodes hwf _
    have hA₂ : dget g'.nodes cn =
        some (dupdate ((dget g.nodes cn).getD []) (c' ++ p')) := by
      rw [hnodes', nodes_add_node_self, nodes_add_node_self]
      rw [Option.getD_some, dupdate_append]
    have hcollapse : add_node (add_node g' cn c') cn p' = g' :=
      add_node_add_node_self_eq c' p' hA₂
        (by rw [← dupdate_append, ← dupdate_append, dupdate_append]
            exact dupdate_idem _ _ hA₀)
    rw [hcollapse]
    exact add_edge_self_eq _ hcn' hcn' hE hEidem
  · have hpc : pn ≠ cn := fun hc => hcp hc.symm
    have hA₀c : (dkeys ((dget g.nodes cn).getD [])).Nodup := wf_getD_nodes hwf _
    have hA₀p : (dkeys ((dget g.nodes pn).getD [])).Nodup := wf_getD_nodes hwf _
    have hAcn : dget g'.nodes cn =
        some (dupdate ((dget g.nodes cn).getD []) c') := by
      rw [hnodes', nodes_add_node_other _ _ _ hcp, nodes_add_node_self]
    have hApn : dget g'.nodes pn =
        some (dupdate ((dget g.nodes pn).getD []) p') := by
      rw [hnodes', nodes_add_node_self, nodes_add_node_other _ _ _ hpc]
    have e₁ : add_node g' cn c' = g' :=
      add_node_self_eq c' hAcn (dupdate_idem _ _ hA₀c)
    have e₂ : add_node g' pn p' = g' :=
      add_node_self_eq p' hApn (dupdate_idem _ _ hA₀p)
    rw [e₁, e₂]
    exact add_edge_self_eq _ hcn' hpn' hE hEidem

/-- C4 (amended): folding the same tuple twice in immediate succession
yields the same graph as folding it once — for every stream, inserting an
immediate repetition of a tuple changes nothing (last-write-wins is
stable under repetition); a repetition appended only later in the stream
can differ, see the counterexample. -/
theorem build_graph_idem_consecutive (l₁ : List RelTuple) (t : RelTuple)
    (l₂ : List RelTuple) :
    build_graph (l₁ ++ t :: t :: l₂) = build_graph (l₁ ++ t :: l₂) := by
  rw [build_graph_append, build_graph_append]
  cases hb : build_graph l₁ with
  | none => rfl
  | some g₀ =>
    simp only [Option.some_bind]
    rw [List.foldlM_cons, List.foldlM_cons]
    cases hs : step g₀ t with
    | none => rfl
    | some g₁ =>
      show List.foldlM step g₁ (t :: l₂) = List.foldlM step g₁ l₂
      rw [List.foldlM_cons, step_idem (wf_build_graph hb) hs]
      rfl

/-- C9: building from the empty stream yields the graph with no nodes and
no edges. -/
theorem build_graph_empty : build_graph [] = some { nodes := [], edges := [] } := rfl

/-- C1 (amended): for every tuple consumed by a successful `build_graph`
run, the popped child and parent names exist as nodes of the resulting
graph and a directed edge `child -> parent` exists; its `label`
attribute, rather than always equalling this tuple's label, equals the
label of the last tuple of the stream with the same (child, parent) name
pair — so it is the tuple's own label exactly when no later tuple shares
the pair (see the counterexample for the overwritten case). -/
theorem build_graph_completeness {data : List RelTuple} {g : DiGraph}
    {t : RelTuple} {cn pn : Value} {c' p' : Attrs}
    (h : build_graph data = some g) (ht : t ∈ data)
    (hpop : popNames t = some ((cn, c'), (pn, p'))) :
    (dget g.nodes cn).isSome ∧ (dget g.nodes pn).isSome ∧
      (dget g.edges (cn, pn)).isSome ∧
      edgeLabel g cn pn = lastLabel data cn pn ∧
      (lastLabel data cn pn).isSome := by
  obtain ⟨h₁, h₂⟩ := build_node_exists h ht hpop
  have he := build_edgeLabel_eq_lastLabel h cn pn
  have hsome := lastLabel_isSome_of_mem ht hpop
  refine ⟨h₁, h₂, ?_, he, hsome⟩
  have hlbl : (edgeLabel g cn pn).isSome := by rw [he]; exact hsome
  unfold edgeLabel at hlbl
  cases hd : dget g.edges (cn, pn) with
  | none => rw [hd] at hlbl; simp at hlbl
  | some a => simp

/-- C1 counterexample: the stream `[overwriteTup1, overwriteTup2]` — two
tuples with the same (child, parent) pair `("x", "y")` but labels
`"A"` and `"B"` — is consumed successfully, yet the resulting graph's
only edge carries the label `"B"`: no edge labelled with the first
tuple's label `"A"` exists, refuting the claim for `overwriteTup1`. -/
theorem build_graph_completeness_cex :
    overwriteTup1 ∈ [overwriteTup1, overwriteTup2] ∧
    overwriteTup1.2.1 = Value.vstr "A" ∧
    popNames overwriteTup1 =
      some ((Value.vstr "x", [("k", Value.vint 1)]), (Value.vstr "y", [])) ∧
    build_graph [overwriteTup1, overwriteTup2] = some overwriteG ∧
    PyDict.dkeys overwriteG.edges = [(Value.vstr "x", Value.vstr "y")] ∧
    edgeLabel overwriteG (Value.vstr "x") (Value.vstr "y") = some (Value.vstr "B") ∧
    Value.vstr "B" ≠ Value.vstr "A" := by
  decide

/-- Witness for the amended C1 at the concrete stream
`[overwriteTup1, overwriteTup2]` and its second tuple. -/
theorem build_graph_completeness_witness :
    (dget overwriteG.nodes (Value.vstr "x")).isSome ∧
      (dget overwriteG.nodes (Value.vstr "y")).isSome ∧
      (dget overwriteG.edges (Value.vstr "x", Value.vstr "y")).isSome ∧
      edgeLabel overwriteG (Value.vstr "x") (Value.vstr "y") =
        lastLabel [overwriteTup1, overwriteTup2] (Value.vstr "x") (Value.vstr "y") ∧
      (lastLabel [overwriteTup1, overwriteTup2] (Value.vstr "x") (Value.vstr "y")).isSome :=
  @build_graph_completeness [overwriteTup1, overwriteTup2] overwriteG overwriteTup2
    (Value.vstr "x") (Value.vstr "y") [("k", Value.vint 2)] []
    (by decide) (by decide) (by decide)

theorem foldlM_step_none_of_mem {data : List RelTuple} {t : RelTuple}
    (hpop : popNames t = none) :
    t ∈ data → ∀ g : DiGraph, List.foldlM step g data = none := by
  induction data with
  | nil => intro ht; simp at ht
  | cons d ds ih =>
    intro ht g
    rw [List.foldlM_cons]
    rcases List.mem_cons.mp ht with hh | hh
    · rw [step_eq_none (hh ▸ hpop)]
      rfl
    · cases hs : step g d with
      | none => rfl
      | some g₁ =>
        show List.foldlM step g₁ ds = none
        exact ih hh g₁

/-- C5: if any tuple of the stream lacks the `"name"` key on its child or
parent descriptor, `build_graph` fails with the missing-key error
(`none`, modelling the `KeyError` propagating to the caller); it does not
recover or skip the tuple. -/
theorem build_graph_missing_name_fails {data : List RelTuple} {t : RelTuple}
    (ht : t ∈ data)
    (hmiss : dget t.1 "name" = none ∨ dget t.2.2 "name" = none) :
    build_graph data = none := by
  have hpop : popNames t = none := by
    unfold popNames
    rcases hmiss with hm | hm
    · rw [(dpop_eq_none_iff _ _).mpr hm]
    · rw [(dpop_eq_none_iff _ _).mpr hm]
      cases dpop t.1 "name" <;> rfl
  unfold build_graph
  exact foldlM_step_none_of_mem hpop ht _

/-- Witness for C5: the stream holding only `namelessTup` (no `"name"` on
the child descriptor) makes `build_graph` fail. -/
theorem build_graph_missing_name_fails_witness :
    build_graph [namelessTup] = none :=
  @build_graph_missing_name_fails [namelessTup] namelessTup (by decide)
    (Or.inl (by decide))

theorem lastLabel_append_no_match {l₃ : List RelTuple} {u v : Value}
    (l : List RelTuple)
    (hl : ∀ t ∈ l₃, ∀ cn'' pn'' c'' p'',
      popNames t = some ((cn'', c''), (pn'', p'')) → ¬(cn'' = u ∧ pn'' = v)) :
    lastLabel (l ++ l₃) u v = lastLabel l u v := by
  induction l₃ generalizing l with
  | nil => simp
  | cons t₀ rest ih =>
    have hsplit : l ++ t₀ :: rest = (l ++ [t₀]) ++ rest := by simp
    rw [hsplit, ih (l ++ [t₀]) (fun t ht => hl t (List.mem_cons_of_mem _ ht))]
    cases hp : popNames t₀ with
    | none => exact lastLabel_concat_none _ _ _ hp
    | some r =>
      obtain ⟨⟨cn₀, c₀⟩, ⟨pn₀, p₀⟩⟩ := r
      exact lastLabel_concat_of_not _ hp
        (hl t₀ (List.mem_cons_self _ _) cn₀ pn₀ c₀ p₀ hp)

/-- C3: when the input stream holds two tuples with the same
(child, parent) name pair but different labels — the later of the two
being the last tuple of the stream with that pair — the resulting graph
holds exactly one edge for the pair and its label is the later tuple's
label; the earlier label is overwritten. -/
theorem build_graph_edge_label_lww {l₁ l₂ l₃ : List RelTuple}
    {ta tb : RelTuple} {g : DiGraph} {cn pn : Value} {ca pa cb pb : Attrs}
    (h : build_graph (l₁ ++ ta :: l₂ ++ tb :: l₃) = some g)
    (hpa : popNames ta = some ((cn, ca), (pn, pa)))
    (hpb : popNames tb = some ((cn, cb), (pn, pb)))
    (hlbl : ta.2.1 ≠ tb.2.1)
    (hlast : ∀ t ∈ l₃, ∀ cn'' pn'' c'' p'',
      popNames t = some ((cn'', c''), (pn'', p'')) → ¬(cn'' = cn ∧ pn'' = pn)) :
    edgeLabel g cn pn = some tb.2.1 ∧
      g.edges.countP (fun e => decide (e.1 = (cn, pn))) = 1 := by
  have he := build_edgeLabel_eq_lastLabel h cn pn
  have hdecomp : l₁ ++ ta :: l₂ ++ tb :: l₃ = ((l₁ ++ ta :: l₂) ++ [tb]) ++ l₃ := by
    simp
  have hlast_eq : lastLabel (l₁ ++ ta :: l₂ ++ tb :: l₃) cn pn = some tb.2.1 := by
    rw [hdecomp, lastLabel_append_no_match _ hlast, lastLabel_concat_match _ hpb]
  have hlabel : edgeLabel g cn pn = some tb.2.1 := by rw [he, hlast_eq]
  refine ⟨hlabel, ?_⟩
  have hsome : (dget g.edges (cn, pn)).isSome := by
    unfold edgeLabel at hlabel
    cases hd : dget g.edges (cn, pn) with
    | none => rw [hd] at hlabel; simp at hlabel
    | some a => simp
  exact countP_key_eq_one (wf_build_graph h).2.1 hsome

/-- Witness for C3 at the concrete stream `[overwriteTup1, overwriteTup2]`. -/
theorem build_graph_edge_label_lww_witness :
    edgeLabel overwriteG (Value.vstr "x") (Value.vstr "y") = some (Value.vstr "B") ∧
      overwriteG.edges.countP
        (fun e => decide (e.1 = (Value.vstr "x", Value.vstr "y"))) = 1 :=
  @build_graph_edge_label_lww [] [] [] overwriteTup1 overwriteTup2 overwriteG
    (Value.vstr "x") (Value.vstr "y") [("k", Value.vint 1)] [] [("k", Value.vint 2)] []
    (by decide) (by decide) (by decide) (by decide)
    (by intro t ht; simp at ht)

/-- C2: when `build_graph` processes a tuple whose child (or parent)
descriptor reuses a node name already in the graph — the two descriptors
naming distinct nodes — the node's attributes after the step are the
per-key last-write-wins merge: a key bound in the residual descriptor has
its new value, any other key keeps its old value.  In particular (see the
witness) folding `({name:"x",k1:1}, L1, {name:"y"})` then
`({name:"x",k2:2}, L2, {name:"z"})` leaves node `"x"` with both `k1 = 1`
and `k2 = 2`. -/
theorem build_graph_attr_merge {g g' : DiGraph} {t : RelTuple}
    {cn pn : Value} {c' p' : Attrs}
    (hC : (dkeys t.1).Nodup) (hP : (dkeys t.2.2).Nodup)
    (hpop : popNames t = some ((cn, c'), (pn, p')))
    (hstep : step g t = some g') (hne : cn ≠ pn) :
    (∀ a, dget g.nodes cn = some a →
      ∀ k, nodeAttrGet g' cn k = (dget c' k <|> dget a k)) ∧
    (∀ a, dget g.nodes pn = some a →
      ∀ k, nodeAttrGet g' pn k = (dget p' k <|> dget a k)) := by
  obtain ⟨hdc, hdp⟩ := popNames_inv hpop
  have hc'nodup : (dkeys c').Nodup := nodup_dkeys_dpop hC hdc
  have hp'nodup : (dkeys p').Nodup := nodup_dkeys_dpop hP hdp
  rw [step_eq hpop] at hstep
  injection hstep with hstep
  subst hstep
  obtain ⟨hcn₂, hpn₂⟩ := upserted_nodes_self g cn pn c' p'
  have hnodes :
      (add_edge (add_node (add_node g cn c') pn p') cn pn t.2.1).nodes =
        (add_node (add_node g cn c') pn p').nodes :=
    nodes_add_edge_of_mem _ _ _ _ hcn₂ hpn₂
  constructor
  · intro a ha k
    have hcattrs : dget (add_node (add_node g cn c') pn p').nodes cn =
        some (dupdate a c') := by
      rw [nodes_add_node_other _ _ _ hne, nodes_add_node_self, ha, Option.getD_some]
    unfold nodeAttrGet
    rw [hnodes, hcattrs]
    simp only [Option.some_bind]
    rw [dget_dupdate, dlast_eq_dget hc'nodup]
  · intro a ha k
    have hpattrs : dget (add_node (add_node g cn c') pn p').nodes pn =
        some (dupdate a p') := by
      rw [nodes_add_node_self,
        nodes_add_node_other _ _ _ (fun hc => hne hc.symm), ha, Option.getD_some]
    unfold nodeAttrGet
    rw [hnodes, hpattrs]
    simp only [Option.some_bind]
    rw [dget_dupdate, dlast_eq_dget hp'nodup]

/-- Witness for C2 at the claim's own scenario: after folding `mergeTup1`
then `mergeTup2`, node `"x"`'s attributes are the merge of its old
attributes `{k1:1}` with the new residual `{k2:2}` — so it carries both
`k1 = 1` and `k2 = 2`. -/
theorem build_graph_attr_merge_witness :
    (∀ k, nodeAttrGet mergeG2 (Value.vstr "x") k =
      (dget [("k2", Value.vint 2)] k <|> dget [("k1", Value.vint 1)] k)) ∧
    nodeAttrGet mergeG2 (Value.vstr "x") "k1" = some (Value.vint 1) ∧
    nodeAttrGet mergeG2 (Value.vstr "x") "k2" = some (Value.vint 2) :=
  ⟨(@build_graph_attr_merge mergeG1 mergeG2 mergeTup2 (Value.vstr "x")
      (Value.vstr "z") [("k2", Value.vint 2)] []
      (by decide) (by decide) (by decide) (by decide) (by decide)).1
        [("k1", Value.vint 1)] (by decide),
    by decide, by decide⟩

/-- C8: processing a tuple mutates exactly the `"name"` entry of each of
the two descriptor dictionaries (`child_attrs.pop('name')`,
`parent_attrs.pop('name')`): afterwards `"name"` is gone from both
residuals, the residual key sequences are the originals with `"name"`
removed, and every other key keeps its original value. -/
theorem popNames_frame {c p : Attrs} {lbl : Value} {cn pn : Value}
    {c' p' : Attrs} (hC : (dkeys c).Nodup) (hP : (dkeys p).Nodup)
    (h : popNames (c, lbl, p) = some ((cn, c'), (pn, p'))) :
    dget c "name" = some cn ∧ dget p "name" = some pn ∧
    dget c' "name" = none ∧ dget p' "name" = none ∧
    dkeys c' = (dkeys c).erase "name" ∧ dkeys p' = (dkeys p).erase "name" ∧
    (∀ k, k ≠ "name" → dget c' k = dget c k) ∧
    (∀ k, k ≠ "name" → dget p' k = dget p k) := by
  obtain ⟨hdc, hdp⟩ := popNames_inv h
  exact ⟨dget_of_dpop hdc, dget_of_dpop hdp,
    dget_dpop_self hC hdc, dget_dpop_self hP hdp,
    dkeys_dpop hdc, dkeys_dpop hdp,
    fun k hk => dget_dpop_other hdc hk,
    fun k hk => dget_dpop_other hdp hk⟩

/-- Witness for C8 at the concrete tuple
`({name:"x", u:7}, "L", {name:"y"})`. -/
theorem popNames_frame_witness :
    dget [("name", Value.vstr "x"), ("u", Value.vint 7)] "name" = some (Value.vstr "x") ∧
    dget [("name", Value.vstr "y")] "name" = some (Value.vstr "y") ∧
    dget [("u", Value.vint 7)] "name" = none ∧
    dget ([] : Attrs) "name" = none ∧
    dkeys [("u", Value.vint 7)] =
      (dkeys [("name", Value.vstr "x"), ("u", Value.vint 7)]).erase "name" ∧
    dkeys ([] : Attrs) = (dkeys [("name", Value.vstr "y")]).erase "name" ∧
    (∀ k, k ≠ "name" →
      dget [("u", Value.vint 7)] k =
        dget [("name", Value.vstr "x"), ("u", Value.vint 7)] k) ∧
    (∀ k, k ≠ "name" → dget ([] : Attrs) k = dget [("name", Value.vstr "y")] k) :=
  @popNames_frame [("name", Value.vstr "x"), ("u", Value.vint 7)]
    [("name", Value.vstr "y")] (Value.vstr "L") (Value.vstr "x") (Value.vstr "y")
    [("u", Value.vint 7)] [] (by decide) (by decide) (by decide)

/-- C10: a single tuple whose child and parent descriptors carry the same
name yields exactly one node (that name) with a self-loop edge labelled
with the tuple's label, and any attribute key bound in both residual
descriptors ends with the parent descriptor's value — the parent is
upserted after the child within the tuple. -/
theorem build_graph_self_loop {c p : Attrs} {lbl : Value} {n : Value}
    {c' p' : Attrs} {g : DiGraph} (hP : (dkeys p).Nodup)
    (hpop : popNames (c, lbl, p) = some ((n, c'), (n, p')))
    (h : build_graph [(c, lbl, p)] = some g) :
    dkeys g.nodes = [n] ∧ dkeys g.edges = [(n, n)] ∧
      edgeLabel g n n = some lbl ∧
      (∀ k v v', dget c' k = some v → dget p' k = some v' →
        nodeAttrGet g n k = some v') := by
  obtain ⟨hdc, hdp⟩ := popNames_inv hpop
  have hp'nodup : (dkeys p').Nodup := nodup_dkeys_dpop hP hdp
  have hstep : step { nodes := [], edges := [] } (c, lbl, p) = some g := by
    unfold build_graph at h
    exact build_singleton_step h
  rw [step_eq hpop] at hstep
  injection hstep with hstep
  have hg : g = DiGraph.mk [(n, dupdate (dupdate [] c') p')]
      [((n, n), dupdate [] [("label", lbl)])] := by
    rw [← hstep]
    unfold add_node add_edge
    simp [dget, dget_dinsert, dinsert]
  subst hg
  refine ⟨rfl, rfl, ?_, ?_⟩
  · unfold edgeLabel
    simp only [dget, if_true, Option.some_bind]
  · intro k v v' hcv hpv
    unfold nodeAttrGet
    simp only [dget, if_true, Option.some_bind]
    rw [dget_dupdate, dlast_eq_dget hp'nodup, hpv]
    rfl

/-- Witness for C10 at `selfLoopTup`: both descriptors are named `"w"`
and share the key `"c"` with values `1` (child) and `2` (parent); the
node ends with the parent's value `2`. -/
theorem build_graph_self_loop_witness :
    dkeys (DiGraph.mk [(Value.vstr "w", [("c", Value.vint 2)])]
      [((Value.vstr "w", Value.vstr "w"), [("label", Value.vstr "loop")])]).nodes =
      [Value.vstr "w"] ∧
    dkeys (DiGraph.mk [(Value.vstr "w", [("c", Value.vint 2)])]
      [((Value.vstr "w", Value.vstr "w"), [("label", Value.vstr "loop")])]).edges =
      [(Value.vstr "w", Value.vstr "w")] ∧
    edgeLabel (DiGraph.mk [(Value.vstr "w", [("c", Value.vint 2)])]
      [((Value.vstr "w", Value.vstr "w"), [("label", Value.vstr "loop")])])
      (Value.vstr "w") (Value.vstr "w") = some (Value.vstr "loop") ∧
    (∀ k v v', dget [("c", Value.vint 1)] k = some v →
      dget [("c", Value.vint 2)] k = some v' →
      nodeAttrGet (DiGraph.mk [(Value.vstr "w", [("c", Value.vint 2)])]
        [((Value.vstr "w", Value.vstr "w"), [("label", Value.vstr "loop")])])
        (Value.vstr "w") k = some v') :=
  @build_graph_self_loop [("name", Value.vstr "w"), ("c", Value.vint 1)]
    [("name", Value.vstr "w"), ("c", Value.vint 2)] (Value.vstr "loop")
    (Value.vstr "w") [("c", Value.vint 1)] [("c", Value.vint 2)]
    (DiGraph.mk [(Value.vstr "w", [("c", Value.vint 2)])]
      [((Value.vstr "w", Value.vstr "w"), [("label", Value.vstr "loop")])])
    (by decide) (by decide) (by decide)

/-- C6 counterexample: for the tag with no identifier annotation and
declared name `"cytosol"`, and reference set `{"cytoplasm"}`, the
resolver returns `"cytosol"` — not `"cytoplasm"` as claimed: difflib's
similarity of the pair is `10/16 = 0.625`, below the `0.8` floor, so the
fuzzy match does not fire. -/
theorem get_name_cytosol_cex :
    get_name failingLookup cytosolTag ["cytoplasm"] = .ok "cytosol" ∧
    "cytosol" ≠ "cytoplasm" := by
  decide

/-- C6 (amended): for the compartment tag with no ontology identifier
annotation and declared name `"cytosol"`: the similarity of
`"cytoplasm"` against `"cytosol"` is `2*5/16 = 0.625`, below the `0.8`
floor, so with reference set `{"cytoplasm"}` no fuzzy match fires and
the resolver returns `"cytosol"` verbatim; with the empty reference set
it returns `"cytosol"` verbatim as well. -/
theorem get_name_cytosol_fallback :
    matchSum "cytoplasm".data "cytosol".data = 5 ∧
    cutoffOk (scorePair "cytoplasm".data "cytosol".data) = false ∧
    get_name failingLookup cytosolTag ["cytoplasm"] = .ok "cytosol" ∧
    get_name failingLookup cytosolTag [] = .ok "cytosol" := by
  decide

theorem mem_bestFold {L : List ((Nat × Nat) × String)}
    {init q : Option ((Nat × Nat) × String)} (hq : q.isSome)
    (h : L.foldl
      (fun best p =>
        match best with
        | none => some p
        | some b =>
          if scoreLt b.1 p.1 || (scoreEq b.1 p.1 && pyStrLt b.2.data p.2.data)
          then some p else some b)
      init = q) :
    init = q ∨ ∃ r ∈ L, q = some r := by
  induction L generalizing init with
  | nil => exact Or.inl h
  | cons p rest ih =>
    rw [List.foldl_cons] at h
    rcases ih h with hf | ⟨r, hr, hqr⟩
    · cases hinit : init with
      | none =>
        rw [hinit] at hf
        exact Or.inr ⟨p, List.mem_cons_self _ _, hf.symm⟩
      | some b =>
        rw [hinit] at hf
        have hf' : (if (scoreLt b.1 p.1 ||
            (scoreEq b.1 p.1 && pyStrLt b.2.data p.2.data)) = true
            then some p else some b) = q := hf
        by_cases hc : (scoreLt b.1 p.1 ||
            (scoreEq b.1 p.1 && pyStrLt b.2.data p.2.data)) = true
        · rw [if_pos hc] at hf'
          exact Or.inr ⟨p, List.mem_cons_self _ _, hf'.symm⟩
        · rw [if_neg hc] at hf'
          exact Or.inl (hinit ▸ hf')
    · exact Or.inr ⟨r, List.mem_cons_of_mem _ hr, hqr⟩

theorem mem_get_close_matches {w : String} {ps : List String} {m : String}
    (h : m ∈ get_close_matches w ps) : m ∈ ps := by
  unfold get_close_matches at h
  simp only at h
  cases hf : List.foldl
      (fun best p =>
        match best with
        | none => some p
        | some b =>
          if scoreLt b.1 p.1 || (scoreEq b.1 p.1 && pyStrLt b.2.data p.2.data)
          then some p else some b)
      none
      (ps.filterMap fun x =>
        if cutoffOk (scorePair x.data w.data)
        then some (scorePair x.data w.data, x) else none) with
  | none => rw [hf] at h; simp at h
  | some q =>
    rw [hf] at h
    rw [List.mem_singleton] at h
    subst h
    rcases mem_bestFold (by simp) hf with hinit | ⟨r, hr, hqr⟩
    · cases hinit
    · injection hqr with hqr
      subst hqr
      rcases List.mem_filterMap.mp hr with ⟨x, hx, hfx⟩
      by_cases hc : cutoffOk (scorePair x.data w.data) = true
      · rw [if_pos hc] at hfx
        injection hfx with hfx
        rw [← hfx]
        exact hx
      · rw [if_neg hc] at hfx
        cases hfx

/-- C7 counterexample: a well-formed tag (it has a declared name) whose
annotation carries an identifier, together with a lookup whose response
holds no documents (the spec's own "service miss" example), makes the
resolver raise an uncaught `IndexError` (`docs[0]` on an empty list is
caught by neither `except` clause) instead of falling through to the
fuzzy-match/fallback steps. -/
theorem get_name_empty_docs_cex :
    annotatedTag.nameAttr.isSome ∧
    get_name emptyDocsLookup annotatedTag ["cytoplasm"] = .error .indexError := by
  decide

/-- C7 (amended): for a tag carrying a declared name or id whose
annotation, when present, carries its resource attribute, the resolver
returns a string and never raises, provided every successful lookup
response holds at least one document: an absent annotation or a
`ValueError` from the lookup falls through to fuzzy matching and the
verbatim fallback.  The returned string is a lookup label, a member of
the reference set, or the tag's own declared name/id.  (Unlike the
original claim, a lookup response with no documents raises an uncaught
`IndexError`, and an annotation lacking `rdf:resource` an uncaught
`KeyError` — see the counterexample.) -/
theorem get_name_no_raise {lookup : String → LookupResult}
    {tag : CompartmentTag} {refs : List String}
    (hwf : tag.nameAttr.isSome ∨ tag.idAttr.isSome)
    (hres : tag.rdfLi ≠ some none)
    (hdocs : ∀ s docs, lookup s = .response docs → docs ≠ []) :
    ∃ s, get_name lookup tag refs = .ok s ∧
      ((∃ gid ds, lookup gid = .response ds ∧ ds.head? = some s) ∨
        s ∈ refs ∨ tag.nameAttr = some s ∨ tag.idAttr = some s) := by
  have hfb : ∃ s, fallbackName tag refs = .ok s ∧
      (s ∈ refs ∨ tag.nameAttr = some s ∨ tag.idAttr = some s) := by
    unfold fallbackName
    cases hn : tag.nameAttr with
    | some nm =>
      simp only
      cases hm : get_close_matches (pyLower nm) refs with
      | nil => exact ⟨nm, rfl, Or.inr (Or.inl rfl)⟩
      | cons m rest =>
        refine ⟨m, rfl, Or.inl ?_⟩
        exact mem_get_close_matches (hm ▸ List.mem_cons_self m rest)
    | none =>
      cases hi : tag.idAttr with
      | none =>
        rw [hn, hi] at hwf
        simp at hwf
      | some nm =>
        simp only
        cases hm : get_close_matches (pyLower nm) refs with
        | nil => exact ⟨nm, rfl, Or.inr (Or.inr rfl)⟩
        | cons m rest =>
          refine ⟨m, rfl, Or.inl ?_⟩
          exact mem_get_close_matches (hm ▸ List.mem_cons_self m rest)
  unfold get_name get_go_id
  cases hr : tag.rdfLi with
  | none =>
    obtain ⟨s, hs, hor⟩ := hfb
    exact ⟨s, hs, Or.inr hor⟩
  | some r =>
    cases r with
    | none => exact absurd hr hres
    | some uri =>
      simp only
      cases hl : lookup (lastSegment uri) with
      | valueError =>
        obtain ⟨s, hs, hor⟩ := hfb
        exact ⟨s, hs, Or.inr hor⟩
      | response docs =>
        cases hd : docs with
        | nil => exact absurd (hd ▸ hl) fun hc => hdocs _ _ hc rfl
        | cons d rest =>
          exact ⟨d, rfl, Or.inl ⟨lastSegment uri, docs,
            hl, by rw [hd]; rfl⟩⟩

/-- Witness for the amended C7: the annotated tag with a lookup returning
one document labelled `"cytosol"` resolves without error. -/
theorem get_name_no_raise_witness :
    ∃ s, get_name oneDocLookup annotatedTag ["cytoplasm"] = .ok s ∧
      ((∃ gid ds, oneDocLookup gid = .response ds ∧ ds.head? = some s) ∨
        s ∈ ["cytoplasm"] ∨ annotatedTag.nameAttr = some s ∨
        annotatedTag.idAttr = some s) :=
  get_name_no_raise (Or.inl (by decide)) (by decide)
    (fun s docs h => by injection h with h; rw [← h]; simp)

/-- C4 counterexample: appending a repetition of `overwriteTup1` — a tuple
already in the stream `[overwriteTup1, overwriteTup2]` — changes the
resulting graph: the intervening `overwriteTup2` had overwritten node
`"x"`'s key `"k"` (2) and the edge label ("B"), and re-folding
`overwriteTup1` at the end writes back `k = 1` and label `"A"`. -/
theorem build_graph_idem_cex :
    overwriteTup1 ∈ [overwriteTup1, overwriteTup2] ∧
    build_graph ([overwriteTup1, overwriteTup2] ++ [overwriteTup1]) =
      some { nodes := [(Value.vstr "x", [("k", Value.vint 1)]), (Value.vstr "y", [])],
             edges := [((Value.vstr "x", Value.vstr "y"),
               [("label", Value.vstr "A")])] } ∧
    build_graph [overwriteTup1, overwriteTup2] = some overwriteG ∧
    build_graph ([overwriteTup1, overwriteTup2] ++ [overwriteTup1]) ≠
      build_graph [overwriteTup1, overwriteTup2] := by
  decide
